import Mathlib

/-!
Shallow embedding of `src/easydel/kernels/gpu_ops/triton_flash_attention_2.py`
(the tiled flash-attention forward/backward kernels and their launch
orchestrators), together with proofs about the embedded definitions.

Floating-point arithmetic is modelled exactly over the reals.  The IEEE value
negative infinity, which the kernels use as a sentinel for masked score lanes
and as the initial value of the running-max / running-log-sum-exp
accumulators, is modelled by the type `FV` below, with `exp(-inf) = 0`,
`log 0 = -inf` and `max` treating `-inf` as a neutral element.
-/

namespace FlashAttn2

/-- Model of the 32-bit float values flowing through the kernels' softmax
state: either the sentinel negative infinity or a finite real. -/
inductive FV where
  | ninf : FV
  | fin : ℝ → FV

namespace FV

/-- Model of IEEE `tl.exp` on the values occurring in the kernel: `exp(-inf) = 0`. -/
noncomputable def exp : FV → ℝ
  | ninf => 0
  | fin x => Real.exp x

/-- Model of IEEE `tl.log` on the values occurring in the kernel: `log 0 = -inf`.
Negative arguments never occur in the kernel runs considered here. -/
noncomputable def log (x : ℝ) : FV :=
  if 0 < x then fin (Real.log x) else ninf

/-- Model of `tl.maximum`, with `-inf` as a neutral element. -/
noncomputable def max : FV → FV → FV
  | ninf, b => b
  | fin x, ninf => fin x
  | fin x, fin y => fin (Max.max x y)

/-- Subtraction.  In the kernel runs considered here the second argument is
always finite whenever the result is consumed. -/
noncomputable def sub : FV → FV → FV
  | ninf, _ => ninf
  | fin _, ninf => ninf
  | fin x, fin y => fin (x - y)

/-- Addition, with the `-inf` sentinel absorbing. -/
noncomputable def add : FV → FV → FV
  | ninf, _ => ninf
  | fin _, ninf => ninf
  | fin x, fin y => fin (x + y)

/-- Multiplication by a finite scalar.  In the kernel runs considered here this
is only applied to finite values (each key tile contains at least one valid
lane, so every row max is finite). -/
noncomputable def smul (c : ℝ) : FV → FV
  | ninf => ninf
  | fin x => fin (c * x)

/-- Order on modelled float values. -/
def le : FV → FV → Prop
  | ninf, _ => True
  | fin _, ninf => False
  | fin x, fin y => x ≤ y

end FV

/-- Signed 64-bit wrap-around: the canonical int64 representative in
[-9223372036854775808, 9223372036854775808), that is [-2^63, 2^63).  Numpy
integer arithmetic is modular in this type. -/
def wrap64 (n : ℤ) : ℤ :=
  (n + 9223372036854775808) % 18446744073709551616 - 9223372036854775808

/-- Embedding of `size = np.prod(shape)` (line 63): the product is accumulated
in numpy int64, wrapping modulo 2^64 at every multiplication.  (A shape entry
of 2^63 or more would already fail to convert to int64; such shapes are
outside the scope of every theorem below.) -/
def np_prod_int64 (shape : List ℕ) : ℤ :=
  shape.foldl (fun (acc : ℤ) (s : ℕ) => wrap64 (acc * (s : ℤ))) 1

/-- Loop of `get_strides` (lines 64-68): for each `s` in `shape`,
`size = int(size // s)` and `size` is appended.  The first `//` is numpy floor
division of an in-range int64 by a positive entry (which cannot overflow) and
`int()` promotes the value to an exact Python integer, so every division is
exact floor division, modelled by `Int.fdiv`. -/
def stridesLoop : ℤ → List ℕ → List ℤ
  | _, [] => []
  | size, s :: rest => Int.fdiv size s :: stridesLoop (Int.fdiv size s) rest

/-- Embedding of `get_strides` (lines 54-68). -/
def get_strides (shape : List ℕ) : List ℤ :=
  stridesLoop (np_prod_int64 shape) shape

/-- Row-major (C order) linear offset of a multi-index, written in Horner form
so that it does not mention strides. -/
def rowMajorOffset (shape idx : List ℕ) : ℕ :=
  (shape.zip idx).foldl (fun acc si => acc * si.1 + si.2) 0

theorem wrap64_eq_self (n : ℤ) (h0 : 0 ≤ n) (h1 : n < 9223372036854775808) :
    wrap64 n = n := by
  unfold wrap64
  rw [Int.emod_eq_of_lt (by linarith) (by linarith)]
  ring

theorem one_le_prod_of_pos (l : List ℕ) (h : ∀ x ∈ l, 0 < x) : 1 ≤ l.prod := by
  induction l with
  | nil => simp
  | cons a t ih =>
    rw [List.prod_cons]
    have ha : 1 ≤ a := h a (List.mem_cons_self a t)
    have ht : 1 ≤ t.prod := ih (fun x hx => h x (List.mem_cons_of_mem a hx))
    calc 1 = 1 * 1 := by norm_num
      _ ≤ a * t.prod := Nat.mul_le_mul ha ht

theorem np_prod_foldl_eq (shape : List ℕ) :
    ∀ acc : ℕ, (∀ s ∈ shape, 0 < s) → acc * shape.prod < 9223372036854775808 →
      shape.foldl (fun (a : ℤ) (s : ℕ) => wrap64 (a * (s : ℤ))) (acc : ℤ)
        = ((acc * shape.prod : ℕ) : ℤ) := by
  induction shape with
  | nil =>
    intro acc _ _
    simp
  | cons s rest ih =>
    intro acc hpos hlt
    have hrestpos : ∀ x ∈ rest, 0 < x := fun x hx => hpos x (List.mem_cons_of_mem s hx)
    have hprod1 : 1 ≤ rest.prod := one_le_prod_of_pos rest hrestpos
    have hassoc : acc * (s :: rest).prod = acc * s * rest.prod := by
      rw [List.prod_cons, Nat.mul_assoc]
    have hlt2 : acc * s * rest.prod < 9223372036854775808 := by
      rw [← hassoc]
      exact hlt
    have hle : acc * s ≤ acc * s * rest.prod :=
      Nat.le_mul_of_pos_right _ (by omega)
    have hwrap : wrap64 ((acc : ℤ) * (s : ℤ)) = ((acc * s : ℕ) : ℤ) := by
      rw [← Nat.cast_mul]
      refine wrap64_eq_self _ (by positivity) ?_
      exact_mod_cast lt_of_le_of_lt hle hlt2
    rw [List.foldl_cons, hwrap, ih (acc * s) hrestpos hlt2]
    exact_mod_cast congrArg (fun m : ℕ => (m : ℤ)) hassoc.symm

theorem np_prod_int64_eq (shape : List ℕ) (hpos : ∀ s ∈ shape, 0 < s)
    (hlt : shape.prod < 9223372036854775808) :
    np_prod_int64 shape = ((shape.prod : ℕ) : ℤ) := by
  have h := np_prod_foldl_eq shape 1 hpos (by simpa using hlt)
  simpa [np_prod_int64] using h

theorem stridesLoop_exact (shape : List ℕ) (hpos : ∀ s ∈ shape, 0 < s) :
    stridesLoop ((shape.prod : ℕ) : ℤ) shape
      = (List.range shape.length).map (fun i => (((shape.drop (i + 1)).prod : ℕ) : ℤ)) := by
  induction shape with
  | nil => simp [stridesLoop]
  | cons s rest ih =>
    have hs : 0 < s := hpos s (List.mem_cons_self s rest)
    have hrest : ∀ x ∈ rest, 0 < x := fun x hx => hpos x (List.mem_cons_of_mem s hx)
    have hdiv : Int.fdiv (((s :: rest).prod : ℕ) : ℤ) (s : ℤ) = ((rest.prod : ℕ) : ℤ) := by
      rw [List.prod_cons, Nat.cast_mul]
      exact Int.mul_fdiv_cancel_left _ (by exact_mod_cast hs.ne')
    rw [stridesLoop, hdiv, List.length_cons, List.range_succ_eq_map]
    simp only [List.map_cons, List.map_map, Function.comp_def, List.drop_succ_cons,
      List.drop_zero, Nat.succ_eq_add_one]
    rw [ih hrest]

theorem horner_foldl (shape idx : List ℕ) (acc : ℕ) (hlen : idx.length = shape.length) :
    (shape.zip idx).foldl (fun a si => a * si.1 + si.2) acc
      = acc * shape.prod
        + ((idx.zip ((List.range shape.length).map (fun i => (shape.drop (i + 1)).prod))).map
            (fun p => p.1 * p.2)).sum := by
  induction shape generalizing idx acc with
  | nil =>
    cases idx with
    | nil => simp
    | cons i irest => simp at hlen
  | cons s rest ih =>
    cases idx with
    | nil => simp at hlen
    | cons i irest =>
      have hlen2 : irest.length = rest.length := by simpa using hlen
      rw [List.zip_cons_cons, List.foldl_cons, ih irest (acc * s + i) hlen2,
        List.length_cons, List.range_succ_eq_map]
      simp only [List.map_cons, List.map_map, Function.comp_def, List.drop_succ_cons,
        List.drop_zero, List.zip_cons_cons, List.sum_cons, List.prod_cons,
        Nat.succ_eq_add_one]
      ring

/-- C8 (counterexample): at the positive-integer shape (2^32, 2^32, 2) the
int64 product in `np.prod` wraps to 0, so `get_strides` returns (0, 0, 0)
instead of the row-major suffix products (2^33, 2, 1): the claim fails as
stated on shapes whose product reaches 2^63 — in particular the stride of the
last axis is not 1 there. -/
theorem get_strides_overflow_counterexample :
    (∀ s ∈ ([4294967296, 4294967296, 2] : List ℕ), 0 < s)
    ∧ get_strides [4294967296, 4294967296, 2] = [0, 0, 0]
    ∧ get_strides [4294967296, 4294967296, 2]
        ≠ (List.range ([4294967296, 4294967296, 2] : List ℕ).length).map
            (fun i => (((([4294967296, 4294967296, 2] : List ℕ).drop (i + 1)).prod : ℕ) : ℤ))
    ∧ (get_strides [4294967296, 4294967296, 2])[2]? ≠ some 1 :=
  ⟨by decide, by decide, by decide, by decide⟩

/-- C8 (amended): for every shape that is a list of positive integers whose
total product is below 2^63 = 9223372036854775808 — so that the int64 product
computed by `np.prod` does not wrap — `get_strides` returns one stride per
axis under row-major layout: entry `i` is the product of the shape entries
after position `i`, the last entry is `1`, and the stride-weighted sum of any
in-range multi-index equals its row-major linear offset; on that domain the
function is total, with no failure mode.  Beyond that bound the int64 product
wraps and the returned strides are wrong (see the counterexample). -/
theorem get_strides_correct (shape idx : List ℕ)
    (hpos : ∀ s ∈ shape, 0 < s)
    (hnoovf : shape.prod < 9223372036854775808)
    (hlen : idx.length = shape.length)
    (_hrange : ∀ p ∈ shape.zip idx, p.2 < p.1) :
    get_strides shape
        = (List.range shape.length).map (fun i => (((shape.drop (i + 1)).prod : ℕ) : ℤ))
      ∧ (∀ k, shape.length = k + 1 → (get_strides shape)[k]? = some 1)
      ∧ ((idx.zip (get_strides shape)).map (fun p => (p.1 : ℤ) * p.2)).sum
          = (rowMajorOffset shape idx : ℤ) := by
  have hchar : get_strides shape
      = (List.range shape.length).map (fun i => (((shape.drop (i + 1)).prod : ℕ) : ℤ)) := by
    rw [get_strides, np_prod_int64_eq shape hpos hnoovf]
    exact stridesLoop_exact shape hpos
  refine ⟨hchar, ?_, ?_⟩
  · intro k hk
    rw [hchar, hk]
    simp only [List.getElem?_map]
    rw [List.getElem?_range (Nat.lt_succ_self k)]
    simp only [Option.map_some']
    rw [← hk, List.drop_length]
    simp
  · rw [hchar]
    have hnat : ((idx.zip ((List.range shape.length).map
          (fun i => (shape.drop (i + 1)).prod))).map (fun p => p.1 * p.2)).sum
        = rowMajorOffset shape idx := by
      rw [rowMajorOffset, horner_foldl shape idx 0 hlen]
      simp
    have hz : idx.zip ((List.range shape.length).map
          (fun i => (((shape.drop (i + 1)).prod : ℕ) : ℤ)))
        = (idx.zip ((List.range shape.length).map
            (fun i => (shape.drop (i + 1)).prod))).map
          (Prod.map id (fun x : ℕ => (x : ℤ))) := by
      rw [show (fun i => (((shape.drop (i + 1)).prod : ℕ) : ℤ))
          = (fun x : ℕ => (x : ℤ)) ∘ (fun i => (shape.drop (i + 1)).prod) from rfl]
      rw [← List.map_map, List.zip_map_right]
    rw [hz, List.map_map]
    have hfun : ((fun p : ℕ × ℤ => (p.1 : ℤ) * p.2)
          ∘ Prod.map id (fun x : ℕ => (x : ℤ)))
        = fun p : ℕ × ℕ => ((p.1 * p.2 : ℕ) : ℤ) := by
      funext p
      obtain ⟨a, b⟩ := p
      simp [Prod.map]
    rw [hfun]
    rw [show (fun p : ℕ × ℕ => ((p.1 * p.2 : ℕ) : ℤ))
        = (fun x : ℕ => (x : ℤ)) ∘ (fun p : ℕ × ℕ => p.1 * p.2) from rfl]
    rw [← List.map_map, ← Nat.cast_list_sum]
    exact_mod_cast hnat

/-- Witness for `get_strides_correct` at shape (2, 3, 4) and index (1, 2, 3). -/
theorem get_strides_correct_witness :
    (∀ s ∈ ([2, 3, 4] : List ℕ), 0 < s)
      ∧ ([2, 3, 4] : List ℕ).prod < 9223372036854775808
      ∧ ([1, 2, 3] : List ℕ).length = ([2, 3, 4] : List ℕ).length
      ∧ (∀ p ∈ ([2, 3, 4] : List ℕ).zip [1, 2, 3], p.2 < p.1)
      ∧ (get_strides [2, 3, 4]
            = (List.range ([2, 3, 4] : List ℕ).length).map
                (fun i => (((([2, 3, 4] : List ℕ).drop (i + 1)).prod : ℕ) : ℤ))
          ∧ (∀ k, ([2, 3, 4] : List ℕ).length = k + 1
              → (get_strides [2, 3, 4])[k]? = some 1)
          ∧ ((([1, 2, 3] : List ℕ).zip (get_strides [2, 3, 4])).map
              (fun p => (p.1 : ℤ) * p.2)).sum
            = (rowMajorOffset [2, 3, 4] [1, 2, 3] : ℤ)) :=
  ⟨by decide, by decide, by decide, by decide,
    get_strides_correct [2, 3, 4] [1, 2, 3] (by decide) (by decide) (by decide) (by decide)⟩

/-- Element dtypes relevant to the validator (lines 120-127 of the source). -/
inductive DType where
  | float16
  | bfloat16
  | float32
  | float64
deriving DecidableEq

/-- Logical view of a jax array for the launch-time checks: shape and dtype. -/
structure TensorSpec where
  shape : List ℕ
  dtype : DType
deriving DecidableEq

/-- Embedding of `check_shapes_and_dtypes` (lines 83-135).  Each chex assertion
is modelled as a conditional whose passing branch continues to the next check
and whose failing branch raises that assertion's message. -/
def check_shapes_and_dtypes (query key value : TensorSpec)
    (batch seqlen_k nheads headdim blocksize_k blocksize_q : ℕ) : Except String Unit :=
  if key.shape = [batch, seqlen_k, nheads, headdim] then
    if value.shape = [batch, seqlen_k, nheads, headdim] then
      if query.dtype = key.dtype then
        if key.dtype = value.dtype then
          if query.dtype ∈ [DType.float16, DType.bfloat16] then
            if blocksize_k % 16 = 0 then
              if blocksize_q % 16 = 0 then
                if headdim ∈ [16, 32, 64, 128, 256] then Except.ok ()
                else Except.error "Unsupported headdim value."
              else Except.error "blocksize_q should be divisible by 16."
            else Except.error "blocksize_k should be divisible by 16."
          else Except.error "Only fp16 and bf16 are supported."
        else Except.error "Dtype mismatch between key and value."
      else Except.error "Dtype mismatch between query and key."
    else Except.error "Shape mismatch for value."
  else Except.error "Shape mismatch for key."

/-- Specification combinator: run an ordered list of (check-passed, message)
pairs, failing with the message of the first violated check. -/
def firstViolation : List (Bool × String) → Except String Unit
  | [] => Except.ok ()
  | c :: rest => if c.1 then firstViolation rest else Except.error c.2

/-- Ordered list of the validator's checks, in the order the spec states them. -/
def orderedChecks (query key value : TensorSpec)
    (batch seqlen_k nheads headdim blocksize_k blocksize_q : ℕ) : List (Bool × String) :=
  [ (decide (key.shape = [batch, seqlen_k, nheads, headdim]), "Shape mismatch for key."),
    (decide (value.shape = [batch, seqlen_k, nheads, headdim]), "Shape mismatch for value."),
    (decide (query.dtype = key.dtype), "Dtype mismatch between query and key."),
    (decide (key.dtype = value.dtype), "Dtype mismatch between key and value."),
    (decide (query.dtype ∈ [DType.float16, DType.bfloat16]), "Only fp16 and bf16 are supported."),
    (decide (blocksize_k % 16 = 0), "blocksize_k should be divisible by 16."),
    (decide (blocksize_q % 16 = 0), "blocksize_q should be divisible by 16."),
    (decide (headdim ∈ [16, 32, 64, 128, 256]), "Unsupported headdim value.") ]

/-- Launch metadata assembled by the forward orchestrator after validation. -/
structure LaunchRecord where
  grid : ℕ × ℕ × ℕ
  blockHeaddim : ℕ
  numWarps : ℕ
deriving DecidableEq

/-- Embedding of `triton.cdiv`. -/
def triton_cdiv (a b : ℕ) : ℕ := (a + b - 1) / b

/-- Halving loop computing the least power of two that is at least `n`; the
first argument is structural fuel so the function evaluates by kernel
reduction. -/
def nextPow2Go : ℕ → ℕ → ℕ
  | 0, _ => 1
  | fuel + 1, n => if n ≤ 1 then 1 else 2 * nextPow2Go fuel ((n + 1) / 2)

/-- Embedding of `triton.next_power_of_2`: the least power of two that is at
least the argument. -/
def next_power_of_2 (n : ℕ) : ℕ := nextPow2Go n n

/-- Embedding of the shape unpacking, validation and launch staging of
`_fwd_attn_kernel_call` (lines 321-414).  A `LaunchRecord` (grid shape, padded
head-dim tile width, warp count) is produced only when validation passes; any
validation failure propagates as the returned error. -/
def _fwd_attn_kernel_call (query key value : TensorSpec)
    (blocksize_q blocksize_k : ℕ) : Except String LaunchRecord :=
  match query.shape, key.shape with
  | [batch, seqlen_q, nheads, headdim], [_, seqlen_k, _, _] =>
      (check_shapes_and_dtypes query key value batch seqlen_k nheads headdim
          blocksize_k blocksize_q).bind
        (fun _ => Except.ok
          ⟨(triton_cdiv seqlen_q blocksize_q, batch, nheads),
            Max.max (next_power_of_2 headdim) 16,
            if headdim ≤ 64 then 4 else 8⟩)
  | _, _ => Except.error "shape unpacking failed"

/-- C5: the shape/dtype validator performs its checks in the stated order and
fails with the descriptive message of the first violated check, and every such
failure is raised by the forward orchestrator before any kernel launch occurs
(the error is returned as is and no launch record is built). -/
theorem check_shapes_and_dtypes_first_violation
    (query key value : TensorSpec)
    (batch seqlen_q seqlen_k nheads headdim blocksize_k blocksize_q : ℕ)
    (a c dd : ℕ) (e : String) :
    check_shapes_and_dtypes query key value batch seqlen_k nheads headdim
        blocksize_k blocksize_q
      = firstViolation (orderedChecks query key value batch seqlen_k nheads headdim
          blocksize_k blocksize_q)
    ∧ (query.shape = [batch, seqlen_q, nheads, headdim] →
        key.shape = [a, seqlen_k, c, dd] →
        check_shapes_and_dtypes query key value batch seqlen_k nheads headdim
            blocksize_k blocksize_q = Except.error e →
        _fwd_attn_kernel_call query key value blocksize_q blocksize_k
          = Except.error e) := by
  constructor
  · simp only [check_shapes_and_dtypes, firstViolation, orderedChecks,
      decide_eq_true_eq]
  · intro hq hk hcheck
    unfold _fwd_attn_kernel_call
    rw [hq, hk]
    simp [hcheck, Except.bind]

/-- Concrete rejected query/key/value for the validator witness: head_dim 17. -/
def spec17 : TensorSpec := ⟨[1, 16, 1, 17], DType.float16⟩

/-- Witness for `check_shapes_and_dtypes_first_violation`: head_dim = 17 is
rejected with the unsupported-head-dimension error before any launch. -/
theorem check_shapes_and_dtypes_first_violation_witness :
    spec17.shape = [1, 16, 1, 17]
    ∧ check_shapes_and_dtypes spec17 spec17 spec17 1 16 1 17 128 128
        = Except.error "Unsupported headdim value."
    ∧ _fwd_attn_kernel_call spec17 spec17 spec17 128 128
        = Except.error "Unsupported headdim value." :=
  ⟨rfl, rfl,
    (check_shapes_and_dtypes_first_violation spec17 spec17 spec17
        1 16 16 1 17 128 128 1 1 17 "Unsupported headdim value.").2 rfl rfl rfl⟩

/-- Heuristic `EVEN_HEADDIM` (line 143): `headdim == BLOCK_HEADDIM`. -/
def even_headdim (headdim block_headdim : ℕ) : Bool := headdim == block_headdim

/-- Branches of the forward kernel's query load (lines 233-242), keyed by the
evenness specializations; the `maskD` flavours are the ones that mask the
head-dimension lanes and substitute the sentinel 0. -/
inductive LoadBranch where
  | plain
  | maskD
  | maskM
  | maskMD
deriving DecidableEq

/-- Branch selector of the forward kernel's query load (lines 233-242). -/
def fwd_q_load_branch (even_m even_n even_hd : Bool) : LoadBranch :=
  if even_n && even_m then (if even_hd then LoadBranch.plain else LoadBranch.maskD)
  else (if even_hd then LoadBranch.maskM else LoadBranch.maskMD)

/-- C10: for every head dimension accepted by the validator, the padded
head-dim tile width `max(next_power_of_2(head_dim), 16)` equals `head_dim`
exactly, so the `EVEN_HEADDIM` heuristic is true and the load branches that
mask head-dimension lanes are unreachable. -/
theorem block_headdim_eq_headdim (headdim : ℕ)
    (h : headdim ∈ ([16, 32, 64, 128, 256] : List ℕ)) :
    Max.max (next_power_of_2 headdim) 16 = headdim
    ∧ even_headdim headdim (Max.max (next_power_of_2 headdim) 16) = true
    ∧ ∀ even_m even_n : Bool,
        fwd_q_load_branch even_m even_n
            (even_headdim headdim (Max.max (next_power_of_2 headdim) 16))
          ≠ LoadBranch.maskD
        ∧ fwd_q_load_branch even_m even_n
            (even_headdim headdim (Max.max (next_power_of_2 headdim) 16))
          ≠ LoadBranch.maskMD := by
  fin_cases h <;> exact ⟨by decide, by decide, by decide⟩

/-- Witness for `block_headdim_eq_headdim` at head_dim = 64. -/
theorem block_headdim_eq_headdim_witness :
    (64 ∈ ([16, 32, 64, 128, 256] : List ℕ))
    ∧ (Max.max (next_power_of_2 64) 16 = 64
        ∧ even_headdim 64 (Max.max (next_power_of_2 64) 16) = true
        ∧ ∀ even_m even_n : Bool,
            fwd_q_load_branch even_m even_n
                (even_headdim 64 (Max.max (next_power_of_2 64) 16))
              ≠ LoadBranch.maskD
            ∧ fwd_q_load_branch even_m even_n
                (even_headdim 64 (Max.max (next_power_of_2 64) 16))
              ≠ LoadBranch.maskMD) :=
  ⟨by decide, block_headdim_eq_headdim 64 (by decide)⟩

/-- Default substitution of the softmax scale, as written at lines 358 and 773:
`softmax_scale = softmax_scale or 1.0 / math.sqrt(headdim)`.  Python's `or`
uses truthiness, so both `None` and `0.0` select the default. -/
noncomputable def resolve_softmax_scale (softmax_scale : Option ℝ) (headdim : ℕ) : ℝ :=
  match softmax_scale with
  | none => 1 / Real.sqrt headdim
  | some s => if s = 0 then 1 / Real.sqrt headdim else s

/-- C9: passing `softmax_scale = 0.0` to the forward call or the backward
orchestrator behaves identically to passing `None` (the default
`1/sqrt(head_dim)` is substituted), and no caller can obtain an actual zero
effective softmax scale. -/
theorem resolve_softmax_scale_zero (headdim : ℕ) (h : 1 ≤ headdim) :
    resolve_softmax_scale (some 0) headdim = resolve_softmax_scale none headdim
    ∧ ∀ s : Option ℝ, resolve_softmax_scale s headdim ≠ 0 := by
  have hpos : 0 < Real.sqrt headdim := Real.sqrt_pos.mpr (by exact_mod_cast h)
  constructor
  · simp [resolve_softmax_scale]
  · intro s
    cases s with
    | none => exact one_div_ne_zero (ne_of_gt hpos)
    | some v =>
      by_cases hv : v = 0
      · simpa [resolve_softmax_scale, hv] using one_div_ne_zero (ne_of_gt hpos)
      · simp [resolve_softmax_scale, hv]

/-- Witness for `resolve_softmax_scale_zero` at head_dim = 16. -/
theorem resolve_softmax_scale_zero_witness :
    (1 ≤ 16)
    ∧ (resolve_softmax_scale (some 0) 16 = resolve_softmax_scale none 16
        ∧ ∀ s : Option ℝ, resolve_softmax_scale s 16 ≠ 0) :=
  ⟨by norm_num, resolve_softmax_scale_zero 16 (by norm_num)⟩

/-- Positions (batch, head, query row) written by the forward kernel into the
log-sum-exp buffer: program ids range over the forward launch grid
`(cdiv(seqlen_q, BLOCK_M), batch, nheads)` (line 409); the kernel takes the
batch index from grid axis 1 and the head index from grid axis 2 (lines
223-227) and stores rows `pid0 * BLOCK_M + r` under the mask `m < seqlen_q`
(lines 303-304). -/
def fwd_lse_written (batch nheads seqlen_q blocksize_q : ℕ) (b h m : ℕ) : Prop :=
  ∃ pid0 < triton_cdiv seqlen_q blocksize_q, ∃ pid1 < batch, ∃ pid2 < nheads,
    b = pid1 ∧ h = pid2
    ∧ ∃ r < blocksize_q, m = pid0 * blocksize_q + r ∧ m < seqlen_q

/-- Positions written by the backward pre-pass kernel `_bwd_do_attn_kernel`
into the delta buffer: the launch grid is the same (line 824), but the kernel
decodes both the batch and the head index from program id axis 1 alone
(`off_hb = program_id(1)`, `off_b = off_hb // nheads`, `off_h = off_hb % nheads`,
lines 456-459), ignoring axis 2; rows are stored under the mask `m < seqlen_q`
(lines 487-491). -/
def bwd_delta_written (batch nheads seqlen_q blocksize_q : ℕ) (b h m : ℕ) : Prop :=
  ∃ pid0 < triton_cdiv seqlen_q blocksize_q, ∃ pid1 < batch, ∃ pid2 < nheads,
    b = pid1 / nheads ∧ h = pid1 % nheads
    ∧ ∃ r < blocksize_q, m = pid0 * blocksize_q + r ∧ m < seqlen_q

/-- C4 (code-bug evidence): at batch = 1, nheads = 2, seqlen_q = 16,
blocksize_q = 16, the forward pass populates the log-sum-exp entry at
(batch 0, head 1, row 0), but the backward pre-pass never writes the delta
entry at that position — decoding (batch, head) from grid axis 1 alone only
covers head indices below `batch`.  This contradicts the claim that the delta
buffer is written at exactly the positions the forward pass populated in the
log-sum-exp buffer, for all batches and all heads. -/
theorem bwd_delta_write_set_mismatch :
    fwd_lse_written 1 2 16 16 0 1 0 ∧ ¬ bwd_delta_written 1 2 16 16 0 1 0 := by
  constructor
  · exact ⟨0, by norm_num [triton_cdiv], 0, by norm_num, 1, by norm_num, rfl, rfl,
      0, by norm_num, by norm_num, by norm_num⟩
  · rintro ⟨p0, hp0, p1, hp1, p2, hp2, hb, hh, r, hr, hm, hmq⟩
    omega

/-- Inputs of one forward work item restricted to a single query row: the
key/value sequence length `n`, the head dimension `d`, the softmax scale, the
query row, the key and value matrices, the bias-presence specialization flag
`HAVE_BIAS` and the bias row.  All row-wise operations of the kernel
(`tl.max(.., 1)`, `tl.sum(.., 1)`, `exp`, and the row of `tl.dot`) act on each
query row independently, so one row captures the whole tile computation. -/
structure AttnInputs (n d : ℕ) where
  softmax_scale : ℝ
  q : Fin d → ℝ
  K : Fin n → Fin d → ℝ
  V : Fin n → Fin d → ℝ
  HAVE_BIAS : Bool
  bias : Fin n → ℝ

/-- Raw score of the query row against key `j`: the row element of
`tl.dot(q, k.T)` (line 267). -/
noncomputable def qk_raw {n d : ℕ} (A : AttnInputs n d) (j : Fin n) : ℝ :=
  ∑ i, A.q i * A.K j i

/-- Row max `tl.max(qk, 1)` over the valid lanes of a key tile.  Out-of-range
lanes hold the sentinel `-inf` (line 269), which is exactly the fold's neutral
starting value, so folding over the valid lanes only is equivalent. -/
noncomputable def rowMaxFV {n : ℕ} (f : Fin n → ℝ) (t : List (Fin n)) : FV :=
  t.foldl (fun acc j => FV.max acc (FV.fin (f j))) FV.ninf

/-- Per-row accumulator state of the forward kernel: running max `m`
(`max_i`), running log-sum-exp `lse` (`lse_i`), weighted value sum `acc`
(the row of `acc_o`). -/
structure FwdState (d : ℕ) where
  m : FV
  lse : FV
  acc : Fin d → ℝ

/-- Initial forward state (lines 250-252): both running quantities start at
`-inf` and the accumulator at zero. -/
noncomputable def initFwdState (d : ℕ) : FwdState d :=
  ⟨FV.ninf, FV.ninf, fun _ => 0⟩

/-- Subtraction point `max_ij` of one key tile (lines 276 and 279): with bias
the row max is taken after scaling and adding the bias tile
(`tl.maximum(tl.max(qk, 1), lse_i)` on the transformed block); without bias
the row max of the raw scores is scaled afterwards
(`tl.maximum(tl.max(qk, 1) * softmax_scale, lse_i)`). -/
noncomputable def tile_max {n d : ℕ} (A : AttnInputs n d) (t : List (Fin n))
    (st : FwdState d) : FV :=
  if A.HAVE_BIAS then
    FV.max (rowMaxFV (fun j => qk_raw A j * A.softmax_scale + A.bias j) t) st.lse
  else
    FV.max (FV.smul A.softmax_scale (rowMaxFV (fun j => qk_raw A j) t)) st.lse

/-- Exponentiated shifted scores `p` of one key tile (lines 277 and 280). -/
noncomputable def tile_p {n d : ℕ} (A : AttnInputs n d) (t : List (Fin n))
    (st : FwdState d) (j : Fin n) : ℝ :=
  if A.HAVE_BIAS then
    FV.exp (FV.sub (FV.fin (qk_raw A j * A.softmax_scale + A.bias j)) (tile_max A t st))
  else
    FV.exp (FV.sub (FV.fin (qk_raw A j * A.softmax_scale)) (tile_max A t st))

/-- One iteration of the forward kernel's scan over a key tile (lines
254-299), restricted to one query row and to the tile's valid lanes
(out-of-range lanes carry score `-inf` and value `0`, so they contribute
nothing to the row max, to `l_ij`, or to the accumulator): compute `max_ij`
and `p`, rescale the accumulator by `exp(max_i - max_ij)`, add `p · v`, and
update the running log-sum-exp as
`max_ij + log(exp(lse_i - max_ij) + l_ij)`. -/
noncomputable def tile_step {n d : ℕ} (A : AttnInputs n d) (st : FwdState d)
    (t : List (Fin n)) : FwdState d :=
  let max_ij := tile_max A t st
  let l_ij : ℝ := (t.map (tile_p A t st)).sum
  let acc_o_scale : ℝ := FV.exp (FV.sub st.m max_ij)
  let acc : Fin d → ℝ := fun i =>
    st.acc i * acc_o_scale + (t.map (fun j => tile_p A t st j * A.V j i)).sum
  let lin : ℝ := FV.exp (FV.sub st.lse max_ij) + l_ij
  ⟨max_ij, FV.add max_ij (FV.log lin), acc⟩

/-- Chunking loop with structural fuel (so that it evaluates by kernel
reduction); `chunkExact` below supplies fuel equal to the list length, which
always suffices. -/
def chunkGo {α : Type} (k : ℕ) : ℕ → List α → List (List α)
  | 0, _ => []
  | _ + 1, [] => []
  | fuel + 1, a :: l => (a :: l.take (k - 1)) :: chunkGo k fuel (l.drop (k - 1))

/-- Consecutive chunks of width `k` (last chunk possibly shorter), modelling
the tiling `for j in range(0, seqlen_k, BLOCK_N)` of line 254. -/
def chunkExact {α : Type} (k : ℕ) (l : List α) : List (List α) :=
  chunkGo k l.length l

/-- Valid lanes of the key tiles, in scan order. -/
def key_tiles (n BLOCK_N : ℕ) : List (List (Fin n)) :=
  chunkExact BLOCK_N (List.finRange n)

/-- Scan of the forward kernel over a tile list, from the initial state. -/
noncomputable def fwd_scan {n d : ℕ} (A : AttnInputs n d)
    (tiles : List (List (Fin n))) : FwdState d :=
  tiles.foldl (tile_step A) (initFwdState d)

/-- State of the forward kernel for one query row after the scan over all key
tiles (lines 250-299). -/
noncomputable def _fwd_attn_kernel_row {n d : ℕ} (A : AttnInputs n d)
    (BLOCK_N : ℕ) : FwdState d :=
  fwd_scan A (key_tiles n BLOCK_N)

/-- Output row written by the forward kernel (lines 301-302, 306-316): the
accumulator rescaled once more by `o_scale = exp(max_i - lse_i)`. -/
noncomputable def fwd_row_out {n d : ℕ} (A : AttnInputs n d) (BLOCK_N : ℕ)
    (i : Fin d) : ℝ :=
  (_fwd_attn_kernel_row A BLOCK_N).acc i
    * FV.exp (FV.sub (_fwd_attn_kernel_row A BLOCK_N).m
        (_fwd_attn_kernel_row A BLOCK_N).lse)

/-- Log-sum-exp value written by the forward kernel (lines 303-304). -/
noncomputable def fwd_row_lse {n d : ℕ} (A : AttnInputs n d) (BLOCK_N : ℕ) : FV :=
  (_fwd_attn_kernel_row A BLOCK_N).lse

/-- Shared scale/bias order rule mapping a raw dot product to the score that
is exponentiated: with bias, `qk * softmax_scale + b`; without bias,
`qk * softmax_scale`. -/
noncomputable def score_rule (have_bias : Bool) (softmax_scale qk b : ℝ) : ℝ :=
  if have_bias then qk * softmax_scale + b else qk * softmax_scale

/-- Full score of the query row against key `j`. -/
noncomputable def score {n d : ℕ} (A : AttnInputs n d) (j : Fin n) : ℝ :=
  score_rule A.HAVE_BIAS A.softmax_scale (qk_raw A j) (A.bias j)

/-- Probability reconstruction of the backward kernel `_bwd_attn_kernel`
(lines 690-705) for one lane: `qk` is the raw dot product, `b` the bias value
and `l` the log-sum-exp loaded from the forward pass; with bias the kernel
computes `exp(qk * softmax_scale + b - l)`, without bias
`exp(qk * softmax_scale - l)`. -/
noncomputable def bwd_p (have_bias : Bool) (softmax_scale qk b l : ℝ) : ℝ :=
  if have_bias then Real.exp ((qk * softmax_scale + b) - l)
  else Real.exp (qk * softmax_scale - l)

/-- Softmax along the key axis: the semantics of `jax.nn.softmax` used by the
reference implementation. -/
noncomputable def jax_softmax {n : ℕ} (s : Fin n → ℝ) (j : Fin n) : ℝ :=
  Real.exp (s j) / ∑ k, Real.exp (s k)

/-- Row restriction of the reference `_simp_attn` (lines 22-51): scale the
query, dot it with the keys, add the bias when present, softmax along the key
axis, and weight the values. -/
noncomputable def _simp_attn_row {n d : ℕ} (A : AttnInputs n d) (i : Fin d) : ℝ :=
  ∑ j, jax_softmax
      (fun j2 => (∑ i2, (A.q i2 * A.softmax_scale) * A.K j2 i2)
        + (if A.HAVE_BIAS then A.bias j2 else 0)) j
    * A.V j i

theorem chunkGo_flatten {α : Type} (k : ℕ) :
    ∀ (fuel : ℕ) (l : List α), l.length ≤ fuel → (chunkGo k fuel l).flatten = l := by
  intro fuel
  induction fuel with
  | zero =>
    intro l hl
    rw [List.length_eq_zero.mp (Nat.le_zero.mp hl)]
    rfl
  | succ m ih =>
    intro l hl
    cases l with
    | nil => rfl
    | cons a t =>
      rw [chunkGo, List.flatten_cons, List.cons_append,
        ih (t.drop (k - 1))
          (by simp only [List.length_drop]; simp only [List.length_cons] at hl; omega),
        List.take_append_drop]

theorem chunkExact_flatten {α : Type} (k : ℕ) (l : List α) :
    (chunkExact k l).flatten = l :=
  chunkGo_flatten k l.length l le_rfl

theorem chunkGo_ne_nil {α : Type} (k : ℕ) :
    ∀ (fuel : ℕ) (l : List α), ∀ t ∈ chunkGo k fuel l, t ≠ [] := by
  intro fuel
  induction fuel with
  | zero =>
    intro l t ht
    simp [chunkGo] at ht
  | succ m ih =>
    intro l
    cases l with
    | nil => intro t ht; simp [chunkGo] at ht
    | cons a t0 =>
      intro u hu
      rw [chunkGo] at hu
      rcases List.mem_cons.mp hu with h | h
      · subst h; simp
      · exact ih (t0.drop (k - 1)) u h

theorem chunkExact_ne_nil {α : Type} (k : ℕ) (l : List α) :
    ∀ t ∈ chunkExact k l, t ≠ [] :=
  chunkGo_ne_nil k l.length l

/-- Sum of exponentiated scores over a list of key positions. -/
noncomputable def sumExp {n d : ℕ} (A : AttnInputs n d) (P : List (Fin n)) : ℝ :=
  (P.map (fun j => Real.exp (score A j))).sum

theorem sumExp_nonneg {n d : ℕ} (A : AttnInputs n d) (P : List (Fin n)) :
    0 ≤ sumExp A P := by
  refine List.sum_nonneg ?_
  intro x hx
  obtain ⟨j, _, rfl⟩ := List.mem_map.mp hx
  exact (Real.exp_pos _).le

theorem sumExp_pos {n d : ℕ} (A : AttnInputs n d) (P : List (Fin n)) (hP : P ≠ []) :
    0 < sumExp A P := by
  cases P with
  | nil => exact absurd rfl hP
  | cons a t =>
    have h1 : 0 < Real.exp (score A a) := Real.exp_pos _
    have h2 : 0 ≤ sumExp A t := sumExp_nonneg A t
    have : 0 < Real.exp (score A a) + sumExp A t := add_pos_of_pos_of_nonneg h1 h2
    simpa [sumExp] using this

theorem sumExp_append {n d : ℕ} (A : AttnInputs n d) (P Q : List (Fin n)) :
    sumExp A (P ++ Q) = sumExp A P + sumExp A Q := by
  simp [sumExp]

theorem exp_score_le_sumExp {n d : ℕ} (A : AttnInputs n d) (P : List (Fin n))
    (j : Fin n) (hj : j ∈ P) : Real.exp (score A j) ≤ sumExp A P := by
  refine List.single_le_sum ?_ _ (List.mem_map.mpr ⟨j, hj, rfl⟩)
  intro x hx
  obtain ⟨j2, _, rfl⟩ := List.mem_map.mp hx
  exact (Real.exp_pos _).le

theorem rowMaxFV_foldl_fin {n : ℕ} (f : Fin n → ℝ) (l : List (Fin n)) (a : ℝ) :
    ∃ r, l.foldl (fun acc j => FV.max acc (FV.fin (f j))) (FV.fin a) = FV.fin r
      ∧ (r = a ∨ ∃ j ∈ l, f j = r) := by
  induction l generalizing a with
  | nil => exact ⟨a, rfl, Or.inl rfl⟩
  | cons b l ih =>
    obtain ⟨r, hr, hcase⟩ := ih (Max.max a (f b))
    refine ⟨r, ?_, ?_⟩
    · rw [List.foldl_cons]
      simpa [FV.max] using hr
    · rcases hcase with h | ⟨j, hj, hfj⟩
      · rcases max_choice a (f b) with h2 | h2
        · exact Or.inl (h.trans h2)
        · exact Or.inr ⟨b, List.mem_cons_self b l, (h.trans h2).symm⟩
      · exact Or.inr ⟨j, List.mem_cons_of_mem b hj, hfj⟩

theorem rowMaxFV_fin {n : ℕ} (f : Fin n → ℝ) (t : List (Fin n)) (ht : t ≠ []) :
    ∃ r, rowMaxFV f t = FV.fin r ∧ ∃ j ∈ t, f j = r := by
  cases t with
  | nil => exact absurd rfl ht
  | cons b l =>
    obtain ⟨r, hr, hcase⟩ := rowMaxFV_foldl_fin f l (f b)
    refine ⟨r, ?_, ?_⟩
    · rw [rowMaxFV, List.foldl_cons]
      simpa [FV.max] using hr
    · rcases hcase with h | ⟨j, hj, hfj⟩
      · exact ⟨b, List.mem_cons_self b l, h.symm⟩
      · exact ⟨j, List.mem_cons_of_mem b hj, hfj⟩

theorem tile_max_eq {n d : ℕ} (A : AttnInputs n d) (t : List (Fin n))
    (st : FwdState d) (ht : t ≠ []) :
    ∃ x, (∃ j ∈ t, score A j = x) ∧ tile_max A t st = FV.max (FV.fin x) st.lse := by
  cases hb : A.HAVE_BIAS
  · obtain ⟨r, hr, j, hj, hfj⟩ := rowMaxFV_fin (fun j => qk_raw A j) t ht
    refine ⟨A.softmax_scale * r, ⟨j, hj, ?_⟩, ?_⟩
    · simp only [score, score_rule, hb, if_false, Bool.false_eq_true]
      rw [← hfj]
      ring
    · simp [tile_max, hb, hr, FV.smul]
  · obtain ⟨r, hr, j, hj, hfj⟩ :=
      rowMaxFV_fin (fun j => qk_raw A j * A.softmax_scale + A.bias j) t ht
    refine ⟨r, ⟨j, hj, ?_⟩, ?_⟩
    · simpa [score, score_rule, hb] using hfj
    · simp [tile_max, hb, hr]

theorem tile_p_eq {n d : ℕ} (A : AttnInputs n d) (t : List (Fin n))
    (st : FwdState d) (M : ℝ) (hM : tile_max A t st = FV.fin M) (j : Fin n) :
    tile_p A t st j = Real.exp (score A j - M) := by
  cases hb : A.HAVE_BIAS <;>
    simp [tile_p, hb, hM, FV.sub, FV.exp, score, score_rule]

/-- Loop invariant of the forward scan: after processing the key positions `P`
(in order), the state is the initial state when `P` is empty; otherwise the
running max `m` is finite and bounded by the running log-sum-exp, `lse` holds
the log of the sum of exponentiated scores over `P`, and the accumulator holds
the `exp(score - m)`-weighted value sums over `P`. -/
def FwdInv {n d : ℕ} (A : AttnInputs n d) (P : List (Fin n)) (st : FwdState d) : Prop :=
  (P = [] ∧ st.m = FV.ninf ∧ st.lse = FV.ninf ∧ ∀ i, st.acc i = 0)
  ∨ (P ≠ [] ∧ ∃ mv, st.m = FV.fin mv ∧ mv ≤ Real.log (sumExp A P)
      ∧ st.lse = FV.fin (Real.log (sumExp A P))
      ∧ ∀ i, st.acc i
          = (P.map (fun j => Real.exp (score A j - mv) * A.V j i)).sum)

theorem tile_step_m {n d : ℕ} (A : AttnInputs n d) (st : FwdState d)
    (t : List (Fin n)) : (tile_step A st t).m = tile_max A t st := rfl

theorem tile_step_lse {n d : ℕ} (A : AttnInputs n d) (st : FwdState d)
    (t : List (Fin n)) :
    (tile_step A st t).lse
      = FV.add (tile_max A t st)
          (FV.log (FV.exp (FV.sub st.lse (tile_max A t st))
            + (t.map (tile_p A t st)).sum)) := rfl

theorem tile_step_acc {n d : ℕ} (A : AttnInputs n d) (st : FwdState d)
    (t : List (Fin n)) (i : Fin d) :
    (tile_step A st t).acc i
      = st.acc i * FV.exp (FV.sub st.m (tile_max A t st))
        + (t.map (fun j => tile_p A t st j * A.V j i)).sum := rfl

theorem sum_tile_p {n d : ℕ} (A : AttnInputs n d) (t : List (Fin n))
    (st : FwdState d) (M : ℝ) (hM : tile_max A t st = FV.fin M) :
    (t.map (tile_p A t st)).sum = sumExp A t * Real.exp (-M) := by
  have h1 : tile_p A t st = fun j => Real.exp (score A j) * Real.exp (-M) := by
    funext j
    rw [tile_p_eq A t st M hM j, sub_eq_add_neg, Real.exp_add]
  rw [h1, List.sum_map_mul_right]
  rfl

theorem sum_tile_p_V {n d : ℕ} (A : AttnInputs n d) (t : List (Fin n))
    (st : FwdState d) (M : ℝ) (hM : tile_max A t st = FV.fin M) (i : Fin d) :
    (t.map (fun j => tile_p A t st j * A.V j i)).sum
      = (t.map (fun j => Real.exp (score A j - M) * A.V j i)).sum := by
  have h1 : (fun j => tile_p A t st j * A.V j i)
      = fun j => Real.exp (score A j - M) * A.V j i := by
    funext j
    rw [tile_p_eq A t st M hM j]
  rw [h1]

theorem tile_step_inv {n d : ℕ} (A : AttnInputs n d) (P t : List (Fin n))
    (st : FwdState d) (ht : t ≠ []) (hinv : FwdInv A P st) :
    FwdInv A (P ++ t) (tile_step A st t) := by
  obtain ⟨x, ⟨jx, hjx, hjxs⟩, hmax⟩ := tile_max_eq A t st ht
  have hSt : 0 < sumExp A t := sumExp_pos A t ht
  rcases hinv with ⟨hP, hm, hlse, hacc⟩ | ⟨hP, mv, hm, hmv, hlse, hacc⟩
  · subst hP
    have hM : tile_max A t st = FV.fin x := by rw [hmax, hlse]; rfl
    have hxle : x ≤ Real.log (sumExp A t) := by
      have h1 : Real.exp (score A jx) ≤ sumExp A t := exp_score_le_sumExp A t jx hjx
      rw [hjxs] at h1
      calc x = Real.log (Real.exp x) := (Real.log_exp x).symm
        _ ≤ Real.log (sumExp A t) := Real.log_le_log (Real.exp_pos x) h1
    refine Or.inr ⟨by simp [ht], x, ?_, ?_, ?_, ?_⟩
    · rw [tile_step_m, hM]
    · simpa using hxle
    · rw [tile_step_lse, hM, hlse, sum_tile_p A t st x hM]
      have hpos : 0 < sumExp A t * Real.exp (-x) := mul_pos hSt (Real.exp_pos _)
      simp only [FV.sub, FV.exp, zero_add]
      rw [FV.log, if_pos hpos]
      simp only [FV.add, List.nil_append]
      rw [Real.log_mul (ne_of_gt hSt) (ne_of_gt (Real.exp_pos _)), Real.log_exp]
      have harith : x + (Real.log (sumExp A t) + -x) = Real.log (sumExp A t) := by ring
      rw [harith]
    · intro i
      rw [tile_step_acc, hM, hm, sum_tile_p_V A t st x hM i, hacc i]
      simp only [FV.sub, FV.exp, List.nil_append]
      ring_nf
  · have hSP : 0 < sumExp A P := sumExp_pos A P hP
    set L := Real.log (sumExp A P) with hL
    set M := Max.max x L with hMdef
    have hM : tile_max A t st = FV.fin M := by rw [hmax, hlse]; rfl
    have hSPt : sumExp A (P ++ t) = sumExp A P + sumExp A t := sumExp_append A P t
    have hMle : M ≤ Real.log (sumExp A (P ++ t)) := by
      refine max_le ?_ ?_
      · have h1 : Real.exp (score A jx) ≤ sumExp A (P ++ t) :=
          exp_score_le_sumExp A (P ++ t) jx (List.mem_append_right P hjx)
        rw [hjxs] at h1
        calc x = Real.log (Real.exp x) := (Real.log_exp x).symm
          _ ≤ Real.log (sumExp A (P ++ t)) := Real.log_le_log (Real.exp_pos x) h1
      · rw [hL, hSPt]
        exact Real.log_le_log hSP (by linarith)
    refine Or.inr ⟨?_, M, ?_, ?_, ?_, ?_⟩
    · intro hc
      exact hP (List.append_eq_nil.mp hc).1
    · rw [tile_step_m, hM]
    · exact hMle
    · rw [tile_step_lse, hM, hlse, sum_tile_p A t st M hM]
      simp only [FV.sub, FV.exp]
      have hexp : Real.exp (L - M) = sumExp A P * Real.exp (-M) := by
        rw [sub_eq_add_neg, Real.exp_add, hL, Real.exp_log hSP]
      rw [hexp]
      have hlin : sumExp A P * Real.exp (-M) + sumExp A t * Real.exp (-M)
          = (sumExp A P + sumExp A t) * Real.exp (-M) := by ring
      rw [hlin]
      have hpos : 0 < (sumExp A P + sumExp A t) * Real.exp (-M) :=
        mul_pos (by linarith) (Real.exp_pos _)
      rw [FV.log, if_pos hpos]
      simp only [FV.add]
      rw [Real.log_mul (by linarith) (ne_of_gt (Real.exp_pos _)), Real.log_exp, hSPt]
      have harith : M + (Real.log (sumExp A P + sumExp A t) + -M)
          = Real.log (sumExp A P + sumExp A t) := by ring
      rw [harith]
    · intro i
      rw [tile_step_acc, hM, hm, sum_tile_p_V A t st M hM i, hacc i]
      simp only [FV.sub, FV.exp]
      rw [List.map_append, List.sum_append, ← List.sum_map_mul_right]
      have hfg : (fun j => Real.exp (score A j - mv) * A.V j i * Real.exp (mv - M))
          = fun j => Real.exp (score A j - M) * A.V j i := by
        funext j
        rw [mul_right_comm, ← Real.exp_add, sub_add_sub_cancel]
      rw [hfg]

theorem foldl_tile_step_inv {n d : ℕ} (A : AttnInputs n d) :
    ∀ (tiles : List (List (Fin n))) (P : List (Fin n)) (st : FwdState d),
      (∀ t ∈ tiles, t ≠ []) → FwdInv A P st →
      FwdInv A (P ++ tiles.flatten) (tiles.foldl (tile_step A) st) := by
  intro tiles
  induction tiles with
  | nil =>
    intro P st _ hinv
    simpa using hinv
  | cons t ts ih =>
    intro P st hne hinv
    have hstep := tile_step_inv A P t st (hne t (List.mem_cons_self t ts)) hinv
    have := ih (P ++ t) (tile_step A st t)
      (fun u hu => hne u (List.mem_cons_of_mem t hu)) hstep
    simpa [List.append_assoc] using this

theorem fwdInv_initial {n d : ℕ} (A : AttnInputs n d) :
    FwdInv A [] (initFwdState d) :=
  Or.inl ⟨rfl, rfl, rfl, fun _ => rfl⟩

theorem _fwd_attn_kernel_row_inv {n d : ℕ} (A : AttnInputs n d) (BLOCK_N : ℕ) :
    FwdInv A (List.finRange n) (_fwd_attn_kernel_row A BLOCK_N) := by
  have h := foldl_tile_step_inv A (key_tiles n BLOCK_N) [] (initFwdState d)
    (chunkExact_ne_nil BLOCK_N (List.finRange n)) (fwdInv_initial A)
  rw [List.nil_append, key_tiles, chunkExact_flatten] at h
  exact h

/-- C1: for every single-row input (any softmax scale, with or without bias,
nonempty key sequence) and every tile width — including widths that do not
divide the sequence length — the output row produced by the tiled forward
kernel's streaming online-softmax recurrence equals, in exact arithmetic, the
reference full-materialization softmax-attention row of `_simp_attn`: the sum
over all key positions of the normalized exponentiated scores times the
values. -/
theorem fwd_row_out_eq_simp_attn {n d : ℕ} (A : AttnInputs n d) (BLOCK_N : ℕ)
    (hn : 0 < n) (i : Fin d) :
    fwd_row_out A BLOCK_N i = _simp_attn_row A i := by
  have hfr : (List.finRange n) ≠ [] := by
    simp only [ne_eq, List.finRange_eq_nil]
    omega
  rcases _fwd_attn_kernel_row_inv A BLOCK_N with ⟨hP, _, _, _⟩ | ⟨_, mv, hm, _, hlse, hacc⟩
  · exact absurd hP hfr
  · have hSpos : 0 < sumExp A (List.finRange n) := sumExp_pos A _ hfr
    unfold fwd_row_out
    rw [hacc i, hm, hlse]
    simp only [FV.sub, FV.exp]
    rw [← List.sum_map_mul_right]
    have hfg : (fun j => Real.exp (score A j - mv) * A.V j i
          * Real.exp (mv - Real.log (sumExp A (List.finRange n))))
        = fun j => Real.exp (score A j) / sumExp A (List.finRange n) * A.V j i := by
      funext j
      rw [mul_right_comm, ← Real.exp_add, sub_add_sub_cancel, Real.exp_sub,
        Real.exp_log hSpos]
    rw [hfg]
    have hlist : ((List.finRange n).map
          (fun j => Real.exp (score A j) / sumExp A (List.finRange n) * A.V j i)).sum
        = ∑ j, Real.exp (score A j) / sumExp A (List.finRange n) * A.V j i :=
      (Fin.sum_univ_def _).symm
    rw [hlist]
    have hscore : ∀ j2 : Fin n,
        ((∑ i2, (A.q i2 * A.softmax_scale) * A.K j2 i2)
          + (if A.HAVE_BIAS then A.bias j2 else 0)) = score A j2 := by
      intro j2
      have hterm : ∀ i2, (A.q i2 * A.softmax_scale) * A.K j2 i2
          = (A.q i2 * A.K j2 i2) * A.softmax_scale := fun i2 => by ring
      rw [Finset.sum_congr rfl (fun i2 _ => hterm i2), ← Finset.sum_mul]
      cases hb : A.HAVE_BIAS
      · simp [score, score_rule, qk_raw, hb]
      · simp [score, score_rule, qk_raw, hb]
    have hden : (∑ k2, Real.exp (score A k2)) = sumExp A (List.finRange n) := by
      rw [sumExp]
      exact Fin.sum_univ_def _
    unfold _simp_attn_row jax_softmax
    simp only [hscore, hden]

/-- Trivial single-row input used by witnesses: one key, head dimension one,
zero tensors, scale 1, no bias. -/
noncomputable def unitAttnInputs : AttnInputs 1 1 :=
  ⟨1, fun _ => 0, fun _ _ => 0, fun _ _ => 0, false, fun _ => 0⟩

/-- Witness for `fwd_row_out_eq_simp_attn` at a concrete one-key input. -/
theorem fwd_row_out_eq_simp_attn_witness :
    0 < 1
    ∧ fwd_row_out unitAttnInputs 16 0 = _simp_attn_row unitAttnInputs 0 :=
  ⟨by norm_num, fwd_row_out_eq_simp_attn unitAttnInputs 16 (by norm_num) 0⟩

/-- C2: the value the forward kernel writes into the log-sum-exp buffer equals
`max_k score[k] + log(Σ_k exp(score[k] - max_k score[k]))`, the true
log-sum-exp of the full scaled (and bias-added, when present) score row — the
streaming recurrence `lse = new_max + log(exp(old_lse - new_max) +
row_sum_of_exp)` terminates at the exact row log-sum-exp. -/
theorem fwd_row_lse_eq {n d : ℕ} (A : AttnInputs n d) (BLOCK_N : ℕ)
    (hne : (Finset.univ : Finset (Fin n)).Nonempty) :
    fwd_row_lse A BLOCK_N
      = FV.fin (Finset.univ.sup' hne (score A)
          + Real.log (∑ j, Real.exp (score A j - Finset.univ.sup' hne (score A)))) := by
  have hn0 : 0 < n := by
    obtain ⟨j, _⟩ := hne
    exact Nat.lt_of_le_of_lt (Nat.zero_le _) j.isLt
  have hfr : (List.finRange n) ≠ [] := by
    simp only [ne_eq, List.finRange_eq_nil]
    omega
  rcases _fwd_attn_kernel_row_inv A BLOCK_N with ⟨hP, _, _, _⟩ | ⟨_, mv, hm, _, hlse, _⟩
  · exact absurd hP hfr
  · have hSpos : 0 < sumExp A (List.finRange n) := sumExp_pos A _ hfr
    unfold fwd_row_lse
    rw [hlse]
    congr 1
    have hden : (∑ j, Real.exp (score A j - Finset.univ.sup' hne (score A)))
        = sumExp A (List.finRange n)
            * Real.exp (-(Finset.univ.sup' hne (score A))) := by
      have hterm : ∀ j : Fin n,
          Real.exp (score A j - Finset.univ.sup' hne (score A))
            = Real.exp (score A j)
                * Real.exp (-(Finset.univ.sup' hne (score A))) := fun j => by
        rw [sub_eq_add_neg, Real.exp_add]
      rw [Finset.sum_congr rfl (fun j _ => hterm j), ← Finset.sum_mul]
      congr 1
    rw [hden, Real.log_mul (ne_of_gt hSpos) (ne_of_gt (Real.exp_pos _)), Real.log_exp]
    ring

/-- Witness for `fwd_row_lse_eq` at a concrete one-key input. -/
theorem fwd_row_lse_eq_witness :
    (Finset.univ : Finset (Fin 1)).Nonempty
    ∧ fwd_row_lse unitAttnInputs 16
      = FV.fin (Finset.univ.sup' Finset.univ_nonempty (score unitAttnInputs)
          + Real.log (∑ j, Real.exp (score unitAttnInputs j
              - Finset.univ.sup' Finset.univ_nonempty (score unitAttnInputs)))) :=
  ⟨Finset.univ_nonempty, fwd_row_lse_eq unitAttnInputs 16 Finset.univ_nonempty⟩

theorem rowMaxFV_const {n : ℕ} (f : Fin n → ℝ) (c : ℝ) (hf : ∀ j, f j = c)
    (t : List (Fin n)) (ht : t ≠ []) : rowMaxFV f t = FV.fin c := by
  have aux : ∀ (l : List (Fin n)),
      l.foldl (fun acc j => FV.max acc (FV.fin (f j))) (FV.fin c) = FV.fin c := by
    intro l
    induction l with
    | nil => rfl
    | cons b l ih =>
      rw [List.foldl_cons, hf b]
      simpa [FV.max, max_self] using ih
  cases t with
  | nil => exact absurd rfl ht
  | cons b l =>
    rw [rowMaxFV, List.foldl_cons, hf b]
    simpa [FV.max] using aux l

/-- Concrete single-row input for the C3 counterexample: 32 keys, head
dimension 1, zero query/key/value, scale 1, no bias (all raw scores are 0). -/
noncomputable def cexInputs : AttnInputs 32 1 :=
  ⟨1, fun _ => 0, fun _ _ => 0, fun _ _ => 0, false, fun _ => 0⟩

/-- First key tile of the counterexample run (width 16). -/
def cexTile1 : List (Fin 32) := (List.finRange 32).take 16

/-- Second key tile of the counterexample run (width 16). -/
def cexTile2 : List (Fin 32) := (List.finRange 32).drop 16

theorem cexTile1_ne : cexTile1 ≠ [] := by decide

theorem cexTile2_ne : cexTile2 ≠ [] := by decide

theorem cex_qk_raw (j : Fin 32) : qk_raw cexInputs j = 0 := by
  simp [qk_raw, cexInputs]

theorem cex_score (j : Fin 32) : score cexInputs j = 0 := by
  have hb : cexInputs.HAVE_BIAS = false := rfl
  have hscale : cexInputs.softmax_scale = 1 := rfl
  rw [score, hb, hscale, cex_qk_raw j]
  simp [score_rule]

theorem cex_m1 : (tile_step cexInputs (initFwdState 1) cexTile1).m = FV.fin 0 := by
  have hb : cexInputs.HAVE_BIAS = false := rfl
  have hscale : cexInputs.softmax_scale = 1 := rfl
  rw [tile_step_m, tile_max, hb]
  simp only [Bool.false_eq_true, if_false]
  rw [rowMaxFV_const (fun j => qk_raw cexInputs j) 0 cex_qk_raw cexTile1 cexTile1_ne,
    hscale]
  simp [FV.smul, FV.max, initFwdState]

theorem cex_lse1 : (tile_step cexInputs (initFwdState 1) cexTile1).lse
    = FV.fin (Real.log 16) := by
  rcases tile_step_inv cexInputs [] cexTile1 (initFwdState 1) cexTile1_ne
      (fwdInv_initial cexInputs) with ⟨hnil, _⟩ | ⟨_, mv, _, _, hlse, _⟩
  · rw [List.nil_append] at hnil
    exact absurd hnil cexTile1_ne
  · rw [hlse, List.nil_append]
    have hsum : sumExp cexInputs cexTile1 = 16 := by
      have hf : (fun j => Real.exp (score cexInputs j)) = fun _ : Fin 32 => (1 : ℝ) := by
        funext j
        rw [cex_score, Real.exp_zero]
      rw [sumExp, hf, List.map_const', List.sum_replicate]
      have hlen : cexTile1.length = 16 := by decide
      rw [hlen]
      norm_num
    rw [hsum]

/-- C3 (counterexample): in the concrete forward run with 32 keys, tile width
16, all raw scores 0, softmax scale 1 and no bias, the kernel's subtraction
point at the second key tile is `max(tile row max, old running log-sum-exp) =
max(0, log 16) = log 16`, which differs from the claimed quantity
`max(old running max, tile row max) = max(0, 0) = 0`: the kernel maxes the
tile row max with the running log-sum-exp `lse_i`, not with the running
maximum `max_i`. -/
theorem tile_max_uses_lse_counterexample :
    key_tiles 32 16 = [cexTile1, cexTile2]
    ∧ tile_max cexInputs cexTile2 (tile_step cexInputs (initFwdState 1) cexTile1)
      ≠ FV.max (tile_step cexInputs (initFwdState 1) cexTile1).m
          (FV.smul cexInputs.softmax_scale
            (rowMaxFV (fun j => qk_raw cexInputs j) cexTile2)) := by
  constructor
  · decide
  · have hb : cexInputs.HAVE_BIAS = false := rfl
    have hscale : cexInputs.softmax_scale = 1 := rfl
    have hlogpos : 0 < Real.log 16 := Real.log_pos (by norm_num)
    rw [tile_max, hb]
    simp only [Bool.false_eq_true, if_false]
    rw [rowMaxFV_const (fun j => qk_raw cexInputs j) 0 cex_qk_raw cexTile2 cexTile2_ne,
      cex_lse1, cex_m1, hscale]
    simp only [FV.smul, mul_zero, FV.max]
    intro hcontra
    injection hcontra with h2
    rw [max_self, max_eq_right hlogpos.le] at h2
    exact absurd h2 (ne_of_gt hlogpos)

/-- State of the forward scan after the first `k` key tiles. -/
noncomputable def scan_state {n d : ℕ} (A : AttnInputs n d) (BLOCK_N k : ℕ) :
    FwdState d :=
  ((key_tiles n BLOCK_N).take k).foldl (tile_step A) (initFwdState d)

theorem fwdInv_m_le_lse {n d : ℕ} (A : AttnInputs n d) (P : List (Fin n))
    (st : FwdState d) (h : FwdInv A P st) : FV.le st.m st.lse := by
  rcases h with ⟨_, hm, hlse, _⟩ | ⟨_, mv, hm, hmv, hlse, _⟩
  · rw [hm, hlse]
    trivial
  · rw [hm, hlse]
    simpa [FV.le] using hmv

theorem scan_state_inv {n d : ℕ} (A : AttnInputs n d) (BLOCK_N k : ℕ) :
    FwdInv A (((key_tiles n BLOCK_N).take k).flatten) (scan_state A BLOCK_N k) := by
  have h := foldl_tile_step_inv A ((key_tiles n BLOCK_N).take k) [] (initFwdState d)
    (fun t ht => chunkExact_ne_nil BLOCK_N (List.finRange n) t (List.mem_of_mem_take ht))
    (fwdInv_initial A)
  simpa [scan_state] using h

/-- C3 (amended): at every step of the forward kernel's scan over key tiles,
the new running maximum (the subtraction point `max_ij`, also used to rescale
the accumulator) equals the elementwise maximum of the current tile's row max
of the score block and the old running **log-sum-exp** — not the old running
max.  Along the scan the running log-sum-exp always dominates the running
max, so the subtraction point dominates the claim's quantity; and the
accumulator is rescaled by `exp(old_max - new_max)` exactly as stated. -/
theorem tile_max_amended {n d : ℕ} (A : AttnInputs n d) (BLOCK_N k : ℕ)
    (hk : k < (key_tiles n BLOCK_N).length) :
    tile_max A ((key_tiles n BLOCK_N).get ⟨k, hk⟩) (scan_state A BLOCK_N k)
        = FV.max
            (if A.HAVE_BIAS then
              rowMaxFV (fun j => qk_raw A j * A.softmax_scale + A.bias j)
                ((key_tiles n BLOCK_N).get ⟨k, hk⟩)
            else
              FV.smul A.softmax_scale
                (rowMaxFV (fun j => qk_raw A j) ((key_tiles n BLOCK_N).get ⟨k, hk⟩)))
            (scan_state A BLOCK_N k).lse
      ∧ FV.le (scan_state A BLOCK_N k).m (scan_state A BLOCK_N k).lse
      ∧ ∀ i,
          (tile_step A (scan_state A BLOCK_N k)
              ((key_tiles n BLOCK_N).get ⟨k, hk⟩)).acc i
            = (scan_state A BLOCK_N k).acc i
                * FV.exp (FV.sub (scan_state A BLOCK_N k).m
                    (tile_max A ((key_tiles n BLOCK_N).get ⟨k, hk⟩)
                      (scan_state A BLOCK_N k)))
              + (((key_tiles n BLOCK_N).get ⟨k, hk⟩).map
                  (fun j => tile_p A ((key_tiles n BLOCK_N).get ⟨k, hk⟩)
                    (scan_state A BLOCK_N k) j * A.V j i)).sum := by
  refine ⟨?_, fwdInv_m_le_lse A _ _ (scan_state_inv A BLOCK_N k),
    fun i => tile_step_acc A (scan_state A BLOCK_N k) _ i⟩
  cases hb : A.HAVE_BIAS <;> simp [tile_max, hb]

/-- Input used by the witness of the amended C3 theorem: 16 keys, one tile. -/
noncomputable def w16Inputs : AttnInputs 16 1 :=
  ⟨1, fun _ => 0, fun _ _ => 0, fun _ _ => 0, false, fun _ => 0⟩

/-- Witness for `tile_max_amended` at tile index 0 of a 16-key input. -/
theorem tile_max_amended_witness :
    0 < (key_tiles 16 16).length
    ∧ FV.le (scan_state w16Inputs 16 0).m (scan_state w16Inputs 16 0).lse :=
  ⟨by decide, (tile_max_amended w16Inputs 16 0 (by decide)).2.1⟩

/-- C6: the forward kernel's tile subtraction point takes the row max after
scale-and-bias when bias is present, and scales only the raw row max (with the
scale otherwise applied inside the exponent) when bias is absent; the
exponentiated scores of the forward tile and the probabilities the backward
kernel reconstructs as `exp(score - lse)` both use the single shared
scale/bias order rule `score_rule`. -/
theorem fwd_bwd_scale_bias_order {n d : ℕ} (A : AttnInputs n d)
    (t : List (Fin n)) (st : FwdState d) (j : Fin n)
    (have_bias : Bool) (softmax_scale qk b l : ℝ) :
    tile_max A t st
        = FV.max
            (if A.HAVE_BIAS then
              rowMaxFV (fun j2 => qk_raw A j2 * A.softmax_scale + A.bias j2) t
            else FV.smul A.softmax_scale (rowMaxFV (fun j2 => qk_raw A j2) t))
            st.lse
      ∧ tile_p A t st j = FV.exp (FV.sub (FV.fin (score A j)) (tile_max A t st))
      ∧ bwd_p have_bias softmax_scale qk b l
          = Real.exp (score_rule have_bias softmax_scale qk b - l) := by
  refine ⟨?_, ?_, ?_⟩
  · cases hb : A.HAVE_BIAS <;> simp [tile_max, hb]
  · cases hb : A.HAVE_BIAS <;> simp [tile_p, score, score_rule, hb]
  · cases have_bias <;> simp [bwd_p, score_rule]

/-- Module constant `FLASH_ATTN_BWD_` (line 19): the tiled backward path is
enabled. -/
def FLASH_ATTN_BWD_ : Bool := true

/-- Residual captured by the forward pass (line 927), restricted to one row:
(output, log-sum-exp, query, key, value, bias); bias is optional exactly as in
the source, where `None` marks absence. -/
structure BwdRowResidual (n d : ℕ) where
  o : Fin d → ℝ
  l : ℝ
  q : Fin d → ℝ
  K : Fin n → Fin d → ℝ
  V : Fin n → Fin d → ℝ
  bias : Option (Fin n → ℝ)

/-- Scores of the reference `_simp_attn` formula recomputed from a residual
(`None` bias behaves as all-zero). -/
noncomputable def fb_scores {n d : ℕ} (R : BwdRowResidual n d) (softmax_scale : ℝ)
    (j : Fin n) : ℝ :=
  (∑ i2, (R.q i2 * softmax_scale) * R.K j i2)
    + (match R.bias with
      | some b => b j
      | none => 0)

/-- Softmax weights of the reference formula. -/
noncomputable def fb_weights {n d : ℕ} (R : BwdRowResidual n d) (softmax_scale : ℝ) :
    Fin n → ℝ :=
  jax_softmax (fb_scores R softmax_scale)

/-- Cotangent of the weights: the dot product of the output gradient with the
value row. -/
noncomputable def fb_dp {n d : ℕ} (R : BwdRowResidual n d) (dO : Fin d → ℝ)
    (j : Fin n) : ℝ :=
  ∑ i, dO i * R.V j i

/-- Cotangent of the scores under the softmax (the standard softmax vjp). -/
noncomputable def fb_dscore {n d : ℕ} (R : BwdRowResidual n d) (softmax_scale : ℝ)
    (dO : Fin d → ℝ) (j : Fin n) : ℝ :=
  fb_weights R softmax_scale j
    * (fb_dp R dO j - ∑ k2, fb_weights R softmax_scale k2 * fb_dp R dO k2)

/-- Query cotangent of the reference formula. -/
noncomputable def fb_dq {n d : ℕ} (R : BwdRowResidual n d) (softmax_scale : ℝ)
    (dO : Fin d → ℝ) (i : Fin d) : ℝ :=
  ∑ j, fb_dscore R softmax_scale dO j * (softmax_scale * R.K j i)

/-- Key cotangent of the reference formula. -/
noncomputable def fb_dK {n d : ℕ} (R : BwdRowResidual n d) (softmax_scale : ℝ)
    (dO : Fin d → ℝ) (j : Fin n) (i : Fin d) : ℝ :=
  fb_dscore R softmax_scale dO j * (R.q i * softmax_scale)

/-- Value cotangent of the reference formula. -/
noncomputable def fb_dV {n d : ℕ} (R : BwdRowResidual n d) (softmax_scale : ℝ)
    (dO : Fin d → ℝ) (j : Fin n) (i : Fin d) : ℝ :=
  fb_weights R softmax_scale j * dO i

/-- Bias cotangent of the reference formula: the bias enters the scores
additively, so its cotangent is the score cotangent. -/
noncomputable def fb_dbias {n d : ℕ} (R : BwdRowResidual n d) (softmax_scale : ℝ)
    (dO : Fin d → ℝ) (j : Fin n) : ℝ :=
  fb_dscore R softmax_scale dO j

/-- Embedding of the return structure of `_bwd_attn_kernel_call` (lines
739-892), restricted to one row.  On the tiled path (line 883) the three
gradient buffers produced by the `triton_call` launch — an external
accelerator call, taken as parameters here — are returned together with
`None` for bias.  On the fallback path (lines 884-892) the function returns
`f_vjp(Do)`, the `jax.vjp` cotangents of `_simp_attn` with respect to
(query, key, value, bias): per the autodiff engine's contract the cotangent
mirrors the primal structure, so an array bias yields an array cotangent (the
bias gradient, modelled by `fb_dbias`) and a `None` bias yields `None`. -/
noncomputable def _bwd_attn_kernel_call_row {n d : ℕ} (flash_attn_bwd : Bool)
    (softmax_scale : ℝ) (tiled_dq : Fin d → ℝ)
    (tiled_dk tiled_dv : Fin n → Fin d → ℝ)
    (residual : BwdRowResidual n d) (dO : Fin d → ℝ) :
    (Fin d → ℝ) × (Fin n → Fin d → ℝ) × (Fin n → Fin d → ℝ) × Option (Fin n → ℝ) :=
  if flash_attn_bwd then
    (tiled_dq, tiled_dk, tiled_dv, none)
  else
    (fb_dq residual softmax_scale dO,
      fun j i => fb_dK residual softmax_scale dO j i,
      fun j i => fb_dV residual softmax_scale dO j i,
      match residual.bias with
      | none => none
      | some _ => some (fb_dbias residual softmax_scale dO))

/-- Concrete residual with a bias tensor present, for the C7 counterexample. -/
noncomputable def c7ResidualBias : BwdRowResidual 1 1 :=
  ⟨fun _ => 0, 0, fun _ => 0, fun _ _ => 0, fun _ _ => 0, some (fun _ => 0)⟩

/-- Concrete residual without bias, for the C7 witness. -/
noncomputable def c7ResidualNone : BwdRowResidual 1 1 :=
  ⟨fun _ => 0, 0, fun _ => 0, fun _ _ => 0, fun _ _ => 0, none⟩

/-- C7 (counterexample): on the reference-autodiff fallback path with a bias
tensor present, the fourth component of the returned 4-tuple is the bias
cotangent array, not `None` — contradicting the claim that the fourth
component is always `None` on both backward paths. -/
theorem bwd_bias_grad_counterexample :
    (_bwd_attn_kernel_call_row false 1 (fun _ => 0) (fun _ _ => 0) (fun _ _ => 0)
        c7ResidualBias (fun _ => 0)).2.2.2 ≠ none := by
  simp [_bwd_attn_kernel_call_row, c7ResidualBias]

/-- C7 (amended): the registered gradient rule returns a 4-tuple whose fourth
component is `None` whenever the tiled backward path is taken — which is
always, since `FLASH_ATTN_BWD_` is `True` — and also on the fallback path when
bias is absent; when bias is present on the fallback path, the fourth
component is the bias cotangent of the reference formula, so bias would be
differentiated there. -/
theorem bwd_bias_component {n d : ℕ} (softmax_scale : ℝ) (tiled_dq : Fin d → ℝ)
    (tiled_dk tiled_dv : Fin n → Fin d → ℝ)
    (residual : BwdRowResidual n d) (dO : Fin d → ℝ) :
    (_bwd_attn_kernel_call_row FLASH_ATTN_BWD_ softmax_scale tiled_dq tiled_dk
        tiled_dv residual dO).2.2.2 = none
    ∧ (residual.bias = none →
        (_bwd_attn_kernel_call_row false softmax_scale tiled_dq tiled_dk
            tiled_dv residual dO).2.2.2 = none)
    ∧ (∀ b, residual.bias = some b →
        (_bwd_attn_kernel_call_row false softmax_scale tiled_dq tiled_dk
            tiled_dv residual dO).2.2.2
          = some (fb_dbias residual softmax_scale dO)) := by
  refine ⟨?_, ?_, ?_⟩
  · simp [_bwd_attn_kernel_call_row, FLASH_ATTN_BWD_]
  · intro hb
    simp [_bwd_attn_kernel_call_row, hb]
  · intro b hb
    simp [_bwd_attn_kernel_call_row, hb]

/-- Witness for `bwd_bias_component`: a concrete fallback invocation without
bias returns `None` in the fourth component. -/
theorem bwd_bias_component_witness :
    c7ResidualNone.bias = none
    ∧ (_bwd_attn_kernel_call_row false 1 (fun _ => 0) (fun _ _ => 0) (fun _ _ => 0)
        c7ResidualNone (fun _ => 0)).2.2.2 = none :=
  ⟨rfl, (bwd_bias_component 1 (fun _ => 0) (fun _ _ => 0) (fun _ _ => 0)
      c7ResidualNone (fun _ => 0)).2.1 rfl⟩

end FlashAttn2
